import Mathlib

/-
Shallow embedding of the translation-resolution core of the kaptinlin/go-i18n
repository (i18n.go, localizer.go, loader.go), together with proofs of the
behavioural properties claimed for it.

Go maps are embedded as association lists with first-match lookup and
replace-or-append insertion; Go's two-level map accesses (which yield the zero
value, i.e. nil, on a missing outer key) are embedded with Option.  The
external MessageFormat library (formatter construction, compilation,
formatting) is out of scope of the repository and is carried inside the bundle
as two abstract fields (mfNewOk, mfCompile); compiled message functions are
arbitrary Lean functions.  The external BCP-47 parser/matcher is modelled where
noted.  Machine integers do not occur in this core.
-/

namespace GoI18n

/-- Result values a compiled MessageFormat function can produce: Go returns
`any`, which the Localizer inspects with a string type assertion; we model it
as either a string or some other value carrying its printed form. -/
inductive Value where
  | str (s : String)
  | other (rep : String)

/-- `Vars` from types.go: a map of named variables for interpolation.  The
payload is opaque to the core, so an association list of `Value` suffices. -/
def Vars := List (String × Value)

/-- A compiled MessageFormat function (`mf.MessageFunction`): takes the
(possibly nil) params value and returns a result or an error. -/
def MsgFunc := Option Vars → Except String Value

/-- `parsedTranslation` from i18n.go: a pre-compiled translation with its
locale, name, original text, and an optional compiled function. -/
structure parsedTranslation where
  locale : String
  name : String
  text : String
  format : Option MsgFunc

/-- The `I18n` bundle state from i18n.go.  Locale tags are embedded as their
canonical strings.  `mfNewOk base` tells whether `mf.New(base, opts)` succeeds
and `mfCompile base text` is the result of `formatter.Compile(text)`; both
stand for the external MessageFormat collaborator configured by the bundle's
options. -/
structure I18n where
  defaultLocale : String
  languages : List String
  fallbacks : List (String × List String)
  parsedTranslations : List (String × List (String × parsedTranslation))
  runtimeParsedTranslations : List (String × parsedTranslation)
  mfNewOk : String → Bool
  mfCompile : String → String → Option MsgFunc

/-- Go map read `m[k]` (with `ok` flag): first matching key. -/
def mfind {α : Type} (m : List (String × α)) (k : String) : Option α :=
  match m with
  | [] => none
  | (k', v) :: rest => if k' = k then some v else mfind rest k

/-- Go map write `m[k] = v`: replace the entry if present, else add it. -/
def minsert {α : Type} (m : List (String × α)) (k : String) (v : α) :
    List (String × α) :=
  match m with
  | [] => [(k, v)]
  | (k', v') :: rest =>
    if k' = k then (k, v) :: rest else (k', v') :: minsert rest k v

/-- Two-level Go map read `b.parsedTranslations[loc][k]`: a missing outer key
yields the nil inner map, whose reads all miss. -/
def mfind2 (m : List (String × List (String × parsedTranslation)))
    (loc k : String) : Option parsedTranslation :=
  match mfind m loc with
  | none => none
  | some inner => mfind inner k

/-- Whether a character list starts with the two-character substring of a
context marker: a space followed by an opening angle bracket. -/
def ctxHead : List Char → Bool
  | ' ' :: '<' :: _ => true
  | _ => false

/-- Byte index of the last occurrence of the context-marker substring, as
computed by `strings.LastIndex(v, " <")`; `none` when absent (Go's -1). -/
def lastCtxIdx : List Char → Option Nat
  | [] => none
  | c :: rest =>
    match lastCtxIdx rest with
    | some j => some (j + 1)
    | none => if ctxHead (c :: rest) then some 0 else none

/-- `strings.HasSuffix(v, ">")`. -/
def endsWithGt (l : List Char) : Bool :=
  match l.getLast? with
  | some '>' => true
  | _ => false

/-- `trimContext` from i18n.go: if `" <"` occurs and the string ends in `>`,
return the prefix before the last occurrence; otherwise return it unchanged. -/
def trimContext (v : String) : String :=
  match lastCtxIdx v.data with
  | some idx => if endsWithGt v.data then String.mk (v.data.take idx) else v
  | none => v

/-- The base language of a canonical tag, as used via
`language.MustParse(locale).Base()`: the part before the first hyphen. -/
def baseOf (locale : String) : String :=
  String.mk (locale.data.takeWhile (fun c => c ≠ '-'))

/-- `parseTranslation` from i18n.go: build the unit with the raw text; if the
formatter can be constructed and the text compiles, attach the compiled
function; on either failure keep `format` nil.  Every path returns a nil
error. -/
def parseTranslation (b : I18n) (locale name text : String) :
    Except String parsedTranslation :=
  if b.mfNewOk (baseOf locale) = true then
    match b.mfCompile (baseOf locale) text with
    | none => Except.ok ⟨locale, name, text, none⟩
    | some f => Except.ok ⟨locale, name, text, some f⟩
  else Except.ok ⟨locale, name, text, none⟩

/-- `Localizer.lookup` from localizer.go: bound locale's index, then the
shared runtime cache, then compile the key itself (context suffix stripped)
against the default locale and memoize it.  Returns the possibly grown
bundle. -/
def lookup (b : I18n) (loc name : String) :
    Except String parsedTranslation × I18n :=
  match mfind2 b.parsedTranslations loc name with
  | some pt => (Except.ok pt, b)
  | none =>
    match mfind b.runtimeParsedTranslations name with
    | some pt => (Except.ok pt, b)
    | none =>
      match parseTranslation b b.defaultLocale name (trimContext name) with
      | Except.error e => (Except.error e, b)
      | Except.ok pt =>
        (Except.ok pt,
          { b with runtimeParsedTranslations :=
              minsert b.runtimeParsedTranslations name pt })

/-- `varsToParams` from localizer.go: nil when no variadic argument was
passed, otherwise the first argument only. -/
def varsToParams (data : List Vars) : Option Vars :=
  match data with
  | [] => none
  | v :: _ => some v

/-- `Localizer.localize` from localizer.go: raw text without a compiled
function or without params; otherwise run the function, falling back to the
raw text on error or on a non-string result. -/
def localize (pt : parsedTranslation) (data : List Vars) : String :=
  match pt.format with
  | none => pt.text
  | some f =>
    match varsToParams data with
    | none => pt.text
    | some params =>
      match f (some params) with
      | Except.error _ => pt.text
      | Except.ok (Value.str s) => s
      | Except.ok (Value.other _) => pt.text

/-- `Localizer.Get` from localizer.go: resolve via `lookup`; on error return
the name itself; otherwise localize. -/
def Get (b : I18n) (loc name : String) (data : List Vars) : String × I18n :=
  match lookup b loc name with
  | (Except.error _, b2) => (name, b2)
  | (Except.ok pt, b2) => (localize pt data, b2)

/-- `Localizer.GetX` from localizer.go: delegate to `Get` with the context
appended as a `" <context>"` suffix. -/
def GetX (b : I18n) (loc name context : String) (data : List Vars) :
    String × I18n :=
  Get b loc (name ++ " <" ++ context ++ ">") data

/-- `Localizer.Format` from localizer.go: compile the message against the
Localizer's own locale and format immediately, surfacing every failure as an
error. -/
def Format (b : I18n) (loc message : String) (data : List Vars) :
    Except String String :=
  if b.mfNewOk (baseOf loc) = true then
    match b.mfCompile (baseOf loc) message with
    | none => Except.error "compile message"
    | some f =>
      match f (varsToParams data) with
      | Except.error _ => Except.error "format message"
      | Except.ok (Value.str s) => Except.ok s
      | Except.ok (Value.other rep) => Except.ok rep
  else Except.error "create formatter"

/-- Modelled from the spec: the external BCP-47 tag parser (not part of this
repository).  Canonicalization is abstracted to the identity; "discard
unparsable or undefined tags silently" is modelled by rejecting the empty
string. -/
def parseLocale (s : String) : Option String :=
  if s = "" then none else some s

/-- `matchExactLocale` from i18n.go.  The call into the external matcher is
modelled from the spec: Exact confidence holds exactly when the candidate's
canonical tag equals one of the configured tags, and the configured tag is
returned. -/
def matchExactLocale (b : I18n) (locale : String) : Option String :=
  match parseLocale locale with
  | none => none
  | some t => if t ∈ b.languages then some t else none

/-- The candidate scan inside `NewLocalizer` (i18n.go): the first candidate
that matches exactly and whose matched locale has loaded translations wins;
`none` when the scan falls through. -/
def newLocalizerLoop (b : I18n) : List String → Option String
  | [] => none
  | loc :: rest =>
    match matchExactLocale b loc with
    | none => newLocalizerLoop b rest
    | some m =>
      if (mfind b.parsedTranslations m).isSome then some m
      else newLocalizerLoop b rest

/-- The locale a `NewLocalizer(locales...)` call binds: the scan's winner, or
the default locale when no candidate qualifies. -/
def newLocalizerLocale (b : I18n) (locales : List String) : String :=
  (newLocalizerLoop b locales).getD b.defaultLocale

/-- Claim-side restatement for the binding rule of `NewLocalizer`: bind a
candidate only when it matches exactly and the matched locale has an entry in
the translation index, skip it otherwise, and fall back to the default locale
when no candidate qualifies. -/
def selectLocaleSpec (b : I18n) : List String → String
  | [] => b.defaultLocale
  | loc :: rest =>
    match matchExactLocale b loc with
    | none => selectLocaleSpec b rest
    | some m =>
      if (mfind b.parsedTranslations m).isSome then m
      else selectLocaleSpec b rest

/-- Number of occurrences of a tag in a list of tags. -/
def countTag (d : String) : List String → Nat
  | [] => 0
  | x :: xs => (if x = d then 1 else 0) + countTag d xs

/-- `slices.Delete` at the first index of `d` (the code only calls it when
that index is positive, i.e. when `d` occurs in the tail). -/
def removeFirstTag (d : String) : List String → List String
  | [] => []
  | x :: xs => if x = d then xs else x :: removeFirstTag d xs

/-- NewBundle's default-locale resolution when none was configured: the first
configured locale, or English ("en") when no locales are configured. -/
def defaultFromLangs : List String → String
  | [] => "en"
  | l :: _ => l

/-- `WithLocales` (i18n.go): parse each candidate, silently dropping
unparsable ones. -/
def withLocalesTags (locs : List String) : List String :=
  locs.filterMap parseLocale

/-- `ensureDefaultLanguageFirst` from i18n.go: empty list becomes the
singleton default; a list already headed by the default is unchanged;
otherwise the first occurrence of the default (if any) is deleted and the
default is inserted at the front. -/
def ensureDefaultLanguageFirst (d : String) (langs : List String) :
    List String :=
  match langs with
  | [] => [d]
  | l0 :: rest =>
    if l0 = d then l0 :: rest
    else if d ∈ l0 :: rest then d :: removeFirstTag d (l0 :: rest)
    else d :: l0 :: rest

/-- The locale bookkeeping of `NewBundle` (i18n.go): the parsed supported
list, the resolved default (an explicitly configured parsable default wins,
else the first supported locale, else English), and the supported list after
`ensureDefaultLanguageFirst`.  Returns (default, languages). -/
def newBundleLanguages (dOpt : Option String) (locs : List String) :
    String × List String :=
  let langs := withLocalesTags locs
  let d :=
    match dOpt with
    | some s =>
      match parseLocale s with
      | some t => t
      | none => defaultFromLangs langs
    | none => defaultFromLangs langs
  (d, ensureDefaultLanguageFirst d langs)

/-- All locales mentioned by the fallback configuration: every key and every
chain element. -/
def fbLocales : List (String × List String) → List String
  | [] => []
  | (k, chain) :: rest => k :: (chain ++ fbLocales rest)

/-- The finite universe of locales a fallback walk started at `loc` can ever
visit. -/
def uLocales (b : I18n) (loc : String) : Finset String :=
  (loc :: fbLocales b.fallbacks).toFinset

/-- Fuel that provably suffices for the cycle-guarded fallback walk. -/
def fallbackFuel (b : I18n) (loc : String) : Nat :=
  (uLocales b loc).card + 1

/-- The chain loop inside `lookupFallback` (i18n.go): try each fallback
locale in order — its own unit if present, else the recursive walk `lf` —
and fall back to the default locale's unit after the chain is exhausted.
The visited set is threaded through, as the Go code shares one map. -/
def chainGo (b : I18n)
    (lf : String → Finset String →
      Option (Option parsedTranslation × Finset String))
    (name : String) :
    List String → Finset String →
      Option (Option parsedTranslation × Finset String)
  | [], vis => some (mfind2 b.parsedTranslations b.defaultLocale name, vis)
  | fb :: rest, vis =>
    match mfind2 b.parsedTranslations fb name with
    | some v => some (some v, vis)
    | none =>
      match lf fb vis with
      | none => none
      | some (some found, vis2) => some (some found, vis2)
      | some (none, vis2) => chainGo b lf name rest vis2

/-- `lookupFallback` from i18n.go, with explicit fuel: an already-visited
locale is treated as not found; otherwise the locale is marked visited and
either (no configured chain) the default locale's unit is returned directly,
or the chain is walked by `chainGo`.  `none` means the fuel ran out — the
termination theorem shows `fallbackFuel` always prevents that. -/
def lookupFallbackF (b : I18n) :
    Nat → String → String → Finset String →
      Option (Option parsedTranslation × Finset String)
  | 0, _, _, _ => none
  | f + 1, locale, name, vis =>
    if locale ∈ vis then some (none, vis)
    else
      match mfind b.fallbacks locale with
      | none =>
        some (mfind2 b.parsedTranslations b.defaultLocale name,
          insert locale vis)
      | some chain =>
        chainGo b (fun l v => lookupFallbackF b f l name v) name chain
          (insert locale vis)

/-- `lookupBestFallback` from i18n.go: run the walk from an empty visited
set. -/
def lookupBestFallback (b : I18n) (locale name : String) :
    Option parsedTranslation :=
  match lookupFallbackF b (fallbackFuel b locale) locale name ∅ with
  | some (r, _) => r
  | none => none

/-- The unit component of a walk step's result (`none` also when the fuel ran
out, which the termination theorem rules out for the fuels used here). -/
def walkResult
    (o : Option (Option parsedTranslation × Finset String)) :
    Option parsedTranslation :=
  match o with
  | some (r, _) => r
  | none => none

/-- The chain walk exhausts the given chain from the given visited set:
every configured fallback's own unit misses and every recursive walk `lf`
comes back empty, with the visited set threaded through to `vis3` — the
situation in which `lookupFallback` reaches its final line and returns the
default locale's unit. -/
inductive chainExhausted (b : I18n)
    (lf : String → Finset String →
      Option (Option parsedTranslation × Finset String))
    (name : String) : List String → Finset String → Finset String → Prop
  | nil (vis : Finset String) : chainExhausted b lf name [] vis vis
  | cons (fb : String) (rest : List String) (vis vis2 vis3 : Finset String) :
      mfind2 b.parsedTranslations fb name = none →
      lf fb vis = some (none, vis2) →
      chainExhausted b lf name rest vis2 vis3 →
      chainExhausted b lf name (fb :: rest) vis vis3

/-- The entries of the default locale's index, over which `formatFallbacks`
iterates. -/
def defaultEntries (b : I18n) : List (String × parsedTranslation) :=
  (mfind b.parsedTranslations b.defaultLocale).getD []

/-- The locale keys of the translation index. -/
def ptKeys (b : I18n) : List String :=
  b.parsedTranslations.map Prod.fst

/-- One inner iteration of `formatFallbacks` (i18n.go): skip the default
locale, skip a locale that already has the unit, otherwise materialize the
best fallback unit (when one is found) into that locale's index. -/
def stepLoc (b : I18n) (defPt : parsedTranslation) (loc : String) : I18n :=
  if loc = b.defaultLocale then b
  else
    match mfind b.parsedTranslations loc with
    | none => b
    | some transM =>
      if (mfind transM defPt.name).isSome then b
      else
        match lookupBestFallback b loc defPt.name with
        | some best =>
          let pts2 := minsert b.parsedTranslations loc (minsert transM defPt.name best)
          { b with parsedTranslations := pts2 }
        | none => b

/-- One outer iteration of `formatFallbacks`: visit every locale of the index
for one default-locale unit. -/
def stepKey (b : I18n) (defPt : parsedTranslation) : I18n :=
  (ptKeys b).foldl (fun acc loc => stepLoc acc defPt loc) b

/-- `formatFallbacks` from i18n.go, run at the end of every `LoadMessages`
call: for every unit of the default locale's index, fill the gap in every
other locale's index from the fallback chain. -/
def formatFallbacks (b : I18n) : I18n :=
  (defaultEntries b).foldl (fun acc e => stepKey acc e.2) b

/-- Replace the translation index of a bundle (the shape every mutation of
`formatFallbacks` has). -/
def setPT (b : I18n)
    (pts : List (String × List (String × parsedTranslation))) : I18n :=
  { b with parsedTranslations := pts }

/-- The fallback configuration only mentions locales inside `U`. -/
def fbClosed (b : I18n) (U : Finset String) : Prop :=
  ∀ l c, mfind b.fallbacks l = some c → ∀ x ∈ c, x ∈ U

/-- The context-marker substring occurs at byte index `i` of `v`. -/
def ctxAt (v : List Char) (i : Nat) : Prop :=
  ctxHead (v.drop i) = true

/-- A unit for key `k` is present in locale `loc`'s index. -/
def pres (b : I18n) (loc k : String) : Prop :=
  (mfind2 b.parsedTranslations loc k).isSome = true

/-- Whether an `Except` is a success. -/
def exceptOk {α : Type} : Except String α → Bool
  | Except.ok _ => true
  | Except.error _ => false

instance (v : List Char) (i : Nat) : Decidable (ctxAt v i) := by
  unfold ctxAt; infer_instance

/-- A bundle with no translations whose MessageFormat collaborator always
fails to build a formatter, so runtime compilation never yields a compiled
template. -/
def bMiss : I18n :=
  ⟨"en", ["en"], [], [], [], fun _ => false, fun _ _ => none⟩

/-- A bundle whose fallback configuration is a self-cycle. -/
def bCyc : I18n :=
  ⟨"en", ["en"], [("a", ["a"])], [], [], fun _ => false, fun _ _ => none⟩

/-- A bundle whose fallback configuration is a mutual cycle. -/
def bMut : I18n :=
  ⟨"en", ["en"], [("a", ["b"]), ("b", ["a"])], [], [],
    fun _ => false, fun _ _ => none⟩

/-- A default-locale unit used by the concrete fallback bundles. -/
def ptK : parsedTranslation := ⟨"en", "k", "hello", none⟩

/-- A bundle whose default locale has one unit and whose second locale has an
empty index. -/
def bGap : I18n :=
  ⟨"en", ["en", "fr"], [], [("en", [("k", ptK)]), ("fr", [])], [],
    fun _ => false, fun _ _ => none⟩

/-- The default-locale unit of the fallback-order scenario. -/
def ptZh : parsedTranslation := ⟨"zh-Hans", "k", "zh text", none⟩

/-- The ko-KR unit of the fallback-order scenario. -/
def ptKo : parsedTranslation := ⟨"ko-KR", "k", "ko text", none⟩

/-- The fallback-order scenario bundle: default zh-Hans, chain ja-JP → ko-KR,
the key loaded in ko-KR and zh-Hans but not in ja-JP. -/
def bJa : I18n :=
  ⟨"zh-Hans", ["zh-Hans", "ja-JP", "ko-KR"], [("ja-JP", ["ko-KR"])],
    [("zh-Hans", [("k", ptZh)]), ("ko-KR", [("k", ptKo)]), ("ja-JP", [])],
    [], fun _ => false, fun _ _ => none⟩

/-- The zh-CN unit of the recursive fallback scenario. -/
def ptCn : parsedTranslation := ⟨"zh-CN", "k", "cn text", none⟩

/-- The recursive fallback scenario bundle: default zh-Hans, chains
ja-JP → ko-KR and ko-KR → zh-CN, the key loaded only in zh-CN and the
default — so resolving it for ja-JP must recurse through ko-KR's chain. -/
def bJa2 : I18n :=
  ⟨"zh-Hans", ["zh-Hans", "ja-JP", "ko-KR", "zh-CN"],
    [("ja-JP", ["ko-KR"]), ("ko-KR", ["zh-CN"])],
    [("zh-Hans", [("k", ptZh)]), ("ko-KR", []), ("zh-CN", [("k", ptCn)]),
      ("ja-JP", [])],
    [], fun _ => false, fun _ _ => none⟩

/-- The unit of the third locale of the order-continuation scenario. -/
def ptC : parsedTranslation := ⟨"c", "k", "c text", none⟩

/-- The order-continuation scenario bundle: locale a's chain is [a, c]; the
walk's first element yields an empty recursion (cycle guard), so the walk
must continue with c, whose own unit wins over the default's. -/
def bSkip : I18n :=
  ⟨"en", ["en"], [("a", ["a", "c"])],
    [("en", [("k", ptK)]), ("a", []), ("c", [("k", ptC)])],
    [], fun _ => false, fun _ _ => none⟩

/-- The exhaustion scenario bundle: locale a's chain is the self-cycle [a]
and a has no unit, so the whole chain exhausts and the default's unit is
returned. -/
def bExh : I18n :=
  ⟨"en", ["en"], [("a", ["a"])], [("en", [("k", ptK)]), ("a", [])],
    [], fun _ => false, fun _ _ => none⟩

/-- A bundle whose MessageFormat collaborator always succeeds, compiling any
message to a function that returns the message text. -/
def bFmt : I18n :=
  ⟨"en", ["en"], [], [], [], fun _ => true,
    fun _ msg => some (fun _ => Except.ok (Value.str msg))⟩

/- ----------------------------------------------------------------------- -/
/- Helper lemmas                                                            -/
/- ----------------------------------------------------------------------- -/

theorem mfind_minsert {α : Type} (m : List (String × α)) (k q : String)
    (v : α) :
    mfind (minsert m k v) q = if k = q then some v else mfind m q := by
  induction m with
  | nil => simp [minsert, mfind]
  | cons hd tl ih =>
    obtain ⟨k2, v2⟩ := hd
    by_cases h2 : k2 = k
    · subst h2
      simp only [minsert, if_pos rfl, mfind]
      by_cases hq : k2 = q <;> simp [hq]
    · simp only [minsert, if_neg h2, mfind]
      by_cases hq : k2 = q
      · subst hq
        have hkq : ¬ k = k2 := fun hh => h2 hh.symm
        simp [if_neg hkq]
      · simp [hq, ih]

theorem mfind_mem {α : Type} (m : List (String × α)) (k : String) (v : α)
    (h : mfind m k = some v) : (k, v) ∈ m := by
  induction m with
  | nil => simp [mfind] at h
  | cons hd tl ih =>
    obtain ⟨k2, v2⟩ := hd
    by_cases h2 : k2 = k
    · subst h2
      simp only [mfind, if_pos rfl] at h
      obtain rfl := Option.some.inj h
      exact List.mem_cons_self _ _
    · simp only [mfind, if_neg h2] at h
      exact List.mem_cons_of_mem _ (ih h)

theorem mem_keys_mfind {α : Type} (m : List (String × α)) (k : String)
    (h : k ∈ m.map Prod.fst) : (mfind m k).isSome = true := by
  induction m with
  | nil => simp at h
  | cons hd tl ih =>
    obtain ⟨k2, v2⟩ := hd
    simp only [List.map_cons, List.mem_cons] at h
    by_cases h2 : k2 = k
    · simp [mfind, h2]
    · rcases h with h | h
      · exact absurd h.symm h2
      · simp [mfind, h2, ih h]

theorem minsert_keys {α : Type} (m : List (String × α)) (k : String)
    (v w : α) (h : mfind m k = some w) :
    (minsert m k v).map Prod.fst = m.map Prod.fst := by
  induction m with
  | nil => simp [mfind] at h
  | cons hd tl ih =>
    obtain ⟨k2, v2⟩ := hd
    by_cases h2 : k2 = k
    · subst h2; simp [minsert]
    · simp only [mfind, if_neg h2] at h
      simp [minsert, h2, ih h]

theorem localize_nil (pt : parsedTranslation) : localize pt [] = pt.text := by
  cases hf : pt.format <;> simp [localize, hf, varsToParams]

theorem localize_cons (pt : parsedTranslation) (v : Vars)
    (rest : List Vars) : localize pt (v :: rest) = localize pt [v] := by
  cases hf : pt.format <;> simp [localize, hf, varsToParams]

theorem parseTranslation_shape (b : I18n) (l n t : String) :
    ∃ fo, parseTranslation b l n t = Except.ok ⟨l, n, t, fo⟩ := by
  unfold parseTranslation
  by_cases h : b.mfNewOk (baseOf l) = true
  · simp only [if_pos h]
    cases hc : b.mfCompile (baseOf l) t
    · exact ⟨none, rfl⟩
    · exact ⟨some _, rfl⟩
  · exact ⟨none, by simp [if_neg h]⟩

theorem lookup_ok (b : I18n) (loc name : String) :
    exceptOk (lookup b loc name).1 = true := by
  cases h1 : mfind2 b.parsedTranslations loc name with
  | some pt => simp [lookup, h1, exceptOk]
  | none =>
    cases h2 : mfind b.runtimeParsedTranslations name with
    | some pt => simp [lookup, h1, h2, exceptOk]
    | none =>
      obtain ⟨fo, hp⟩ :=
        parseTranslation_shape b b.defaultLocale name (trimContext name)
      simp [lookup, h1, h2, hp, exceptOk]

theorem lastCtxIdx_none_all :
    ∀ l : List Char, lastCtxIdx l = none →
      ∀ i, ctxHead (l.drop i) = false := by
  intro l
  induction l with
  | nil => intro _ i; rw [List.drop_nil]; rfl
  | cons c rest ih =>
    intro h i
    cases hr : lastCtxIdx rest with
    | some j => rw [lastCtxIdx, hr] at h; simp at h
    | none =>
      rw [lastCtxIdx, hr] at h
      by_cases hc : ctxHead (c :: rest) = true
      · rw [if_pos hc] at h; simp at h
      · cases i with
        | zero =>
          simp only [Bool.not_eq_true] at hc
          simpa using hc
        | succ i2 => simpa using ih hr i2

theorem lastCtxIdx_some_spec :
    ∀ (l : List Char) (j : Nat), lastCtxIdx l = some j →
      ctxHead (l.drop j) = true ∧
        ∀ i, ctxHead (l.drop i) = true → i ≤ j := by
  intro l
  induction l with
  | nil => intro j h; simp [lastCtxIdx] at h
  | cons c rest ih =>
    intro j h
    cases hr : lastCtxIdx rest with
    | some j2 =>
      rw [lastCtxIdx, hr] at h
      obtain rfl : j2 + 1 = j := Option.some.inj h
      obtain ⟨h1, h2⟩ := ih j2 hr
      refine ⟨by simpa using h1, ?_⟩
      intro i hi
      cases i with
      | zero => exact Nat.zero_le _
      | succ i2 =>
        have := h2 i2 (by simpa using hi)
        omega
    | none =>
      rw [lastCtxIdx, hr] at h
      by_cases hc : ctxHead (c :: rest) = true
      · rw [if_pos hc] at h
        obtain rfl : (0 : Nat) = j := Option.some.inj h
        refine ⟨by simpa using hc, ?_⟩
        intro i hi
        cases i with
        | zero => exact Nat.le_refl 0
        | succ i2 =>
          have hfalse := lastCtxIdx_none_all rest hr i2
          rw [List.drop_succ_cons] at hi
          rw [hi] at hfalse
          simp at hfalse
      · rw [if_neg hc] at h; simp at h

/- ----------------------------------------------------------------------- -/
/- Claim theorems (C1, C6, C7, C8, C9, C10)                                 -/
/- ----------------------------------------------------------------------- -/

/-- C1 (amended): when a key has no translation in the bound locale's index
and no runtime-cache entry, `Get(key)` without variables returns
`trimContext key` — the key with any trailing context suffix stripped — which
equals the key itself exactly when the key carries no context suffix.  The
original claim ("returns exactly the string key") fails for suffixed keys,
see the counterexample. -/
theorem claim_C1 (b : I18n) (loc key : String)
    (hidx : mfind2 b.parsedTranslations loc key = none)
    (hcache : mfind b.runtimeParsedTranslations key = none) :
    (Get b loc key []).1 = trimContext key := by
  obtain ⟨fo, hp⟩ :=
    parseTranslation_shape b b.defaultLocale key (trimContext key)
  simp [Get, lookup, hidx, hcache, hp, localize_nil]

/-- C1 counterexample: on a bundle with no translations, no cache entries and
a MessageFormat collaborator that always fails (so runtime compilation yields
no usable compiled template), `Get("Post <verb>")` returns `"Post"`, not the
key itself. -/
theorem claim_C1_cex :
    (Get bMiss "en" "Post <verb>" []).1 = "Post" ∧
    (Get bMiss "en" "Post <verb>" []).1 ≠ "Post <verb>" := by
  refine ⟨by decide, by decide⟩

/-- C1 witness: the amended theorem applied at a concrete total miss. -/
theorem claim_C1_witness :
    (Get bMiss "en" "Post <verb>" []).1 = trimContext "Post <verb>" :=
  claim_C1 bMiss "en" "Post <verb>" rfl rfl

/-- C6: `trimContext` returns the prefix before the last occurrence of the
substring consisting of a space and an opening angle bracket whenever the
string ends in a closing angle bracket and that substring occurs; otherwise
(no closing-bracket suffix, or no occurrence) the string is unchanged; with
the three concrete examples from the spec. -/
theorem claim_C6 :
    (∀ v : String,
      (∀ i, endsWithGt v.data = true → ctxAt v.data i →
        ∃ j, ctxAt v.data j ∧ (∀ i2, ctxAt v.data i2 → i2 ≤ j) ∧
          trimContext v = String.mk (v.data.take j)) ∧
      (endsWithGt v.data = false → trimContext v = v) ∧
      ((∀ i, ¬ ctxAt v.data i) → trimContext v = v)) ∧
    trimContext "Post <verb>" = "Post" ∧
    trimContext "a <b> <c>" = "a <b>" ∧
    trimContext "no context" = "no context" := by
  refine ⟨fun v => ⟨?_, ?_, ?_⟩, by decide, by decide, by decide⟩
  · intro i hgt hat
    cases h : lastCtxIdx v.data with
    | none =>
      exact absurd hat (by simp [ctxAt, lastCtxIdx_none_all v.data h i])
    | some j =>
      obtain ⟨hj1, hj2⟩ := lastCtxIdx_some_spec v.data j h
      exact ⟨j, hj1, fun i2 h2 => hj2 i2 h2, by simp [trimContext, h, hgt]⟩
  · intro hgt
    cases h : lastCtxIdx v.data with
    | none => simp [trimContext, h]
    | some j => simp [trimContext, h, hgt]
  · intro hno
    cases h : lastCtxIdx v.data with
    | none => simp [trimContext, h]
    | some j =>
      obtain ⟨hj1, _⟩ := lastCtxIdx_some_spec v.data j h
      exact absurd hj1 (by simpa [ctxAt] using hno j)

/-- C6 witness: the last-occurrence characterization instantiated on the
double-context example. -/
theorem claim_C6_witness :
    ∃ j, ctxAt ("a <b> <c>" : String).data j ∧
      (∀ i2, ctxAt ("a <b> <c>" : String).data i2 → i2 ≤ j) ∧
      trimContext "a <b> <c>" =
        String.mk (("a <b> <c>" : String).data.take j) :=
  (claim_C6.1 "a <b> <c>").1 5 (by decide) (by decide)

/-- C7: `Format` compiles against the Localizer's own locale — its result is
independent of the bundle's default locale — and a success is possible only
when formatter construction, compilation and formatting all succeed (so every
failure of the three stages surfaces as an error); and `lookup`, the resolver
behind `Get`/`GetX`/`Getf`, never surfaces an error. -/
theorem claim_C7 (b : I18n) (d loc message : String) (data : List Vars) :
    Format { b with defaultLocale := d } loc message data =
      Format b loc message data ∧
    (exceptOk (Format b loc message data) = true →
      b.mfNewOk (baseOf loc) = true ∧
      ∃ f, b.mfCompile (baseOf loc) message = some f ∧
        ∃ val, f (varsToParams data) = Except.ok val) ∧
    (∀ name, exceptOk (lookup b loc name).1 = true) := by
  refine ⟨rfl, ?_, fun name => lookup_ok b loc name⟩
  intro hok
  by_cases hn : b.mfNewOk (baseOf loc) = true
  · cases hc : b.mfCompile (baseOf loc) message with
    | none => simp [Format, hn, hc, exceptOk] at hok
    | some f =>
      cases hv : f (varsToParams data) with
      | error e => simp [Format, hn, hc, hv, exceptOk] at hok
      | ok val => exact ⟨hn, f, rfl, val, hv⟩
  · simp [Format, hn, exceptOk] at hok

/-- C7 witness: on a bundle whose collaborator succeeds, the success
characterization and the never-failing lookup, at concrete inputs. -/
theorem claim_C7_witness :
    bFmt.mfNewOk (baseOf "en") = true ∧
    (∃ f, bFmt.mfCompile (baseOf "en") "hi" = some f ∧
      ∃ val, f (varsToParams []) = Except.ok val) ∧
    exceptOk (lookup bFmt "en" "x").1 = true := by
  have h := claim_C7 bFmt "zz" "en" "hi" []
  exact ⟨(h.2.1 rfl).1, (h.2.1 rfl).2, h.2.2 "x"⟩

/-- C8: `GetX(name, context, vars)` returns exactly `Get` of the
context-suffixed key on the same bundle state, variables included (the
returned string and the resulting bundle state agree). -/
theorem claim_C8 (b : I18n) (loc name context : String) (data : List Vars) :
    GetX b loc name context data =
      Get b loc (name ++ " <" ++ context ++ ">") data := rfl

/-- C9: the locale a `NewLocalizer` call binds coincides with the claim's
selection rule: the first candidate that matches a configured locale exactly
and whose matched locale has an entry in the translation index; candidates
that match but have no loaded translations are skipped; the default locale
when no candidate qualifies. -/
theorem claim_C9 (b : I18n) (cands : List String) :
    newLocalizerLocale b cands = selectLocaleSpec b cands := by
  induction cands with
  | nil => rfl
  | cons loc rest ih =>
    show (newLocalizerLoop b (loc :: rest)).getD b.defaultLocale = _
    simp only [newLocalizerLoop, selectLocaleSpec]
    cases hm : matchExactLocale b loc with
    | none => simp only [hm]; exact ih
    | some m =>
      by_cases hs : (mfind b.parsedTranslations m).isSome = true
      · simp [hm, hs]
      · simp only [hm, Bool.not_eq_true] at hs ⊢
        simp only [hs]
        simpa using ih

/-- C10: of the variadic `Vars` arguments, only the first is used — `Get`,
`GetX` and `Format` give the same result when the extra arguments are
dropped — and a call with zero `Vars` arguments produces nil params, so
`localize` returns the raw text. -/
theorem claim_C10 (b : I18n) (loc name context message : String)
    (v1 : Vars) (rest : List Vars) (pt : parsedTranslation) :
    Get b loc name (v1 :: rest) = Get b loc name [v1] ∧
    GetX b loc name context (v1 :: rest) = GetX b loc name context [v1] ∧
    Format b loc message (v1 :: rest) = Format b loc message [v1] ∧
    varsToParams [] = none ∧
    localize pt [] = pt.text := by
  have hGet : ∀ nm, Get b loc nm (v1 :: rest) = Get b loc nm [v1] := by
    intro nm
    cases h : lookup b loc nm with
    | mk e b2 =>
      cases e with
      | error s => simp [Get, h]
      | ok pt2 => simp [Get, h, localize_cons]
  exact ⟨hGet name, hGet _, rfl, rfl, localize_nil pt⟩

/- ----------------------------------------------------------------------- -/
/- C5: default locale placement in the supported list                       -/
/- ----------------------------------------------------------------------- -/

theorem countTag_eq_zero (d : String) :
    ∀ l : List String, d ∉ l → countTag d l = 0 := by
  intro l
  induction l with
  | nil => intro _; rfl
  | cons x xs ih =>
    intro h
    have hx : ¬ x = d := fun hh => h (by simp [hh])
    simp [countTag, hx, ih (fun hm => h (List.mem_cons_of_mem _ hm))]

theorem countTag_pos (d : String) :
    ∀ l : List String, d ∈ l → 1 ≤ countTag d l := by
  intro l
  induction l with
  | nil => intro h; simp at h
  | cons x xs ih =>
    intro h
    by_cases hx : x = d
    · simp [countTag, hx]
    · rcases List.mem_cons.mp h with h1 | h1
      · exact absurd h1.symm hx
      · have := ih h1
        simp [countTag, hx]
        omega

theorem countTag_removeFirstTag (d : String) :
    ∀ l : List String, d ∈ l →
      countTag d (removeFirstTag d l) + 1 = countTag d l := by
  intro l
  induction l with
  | nil => intro h; simp at h
  | cons x xs ih =>
    intro h
    by_cases hx : x = d
    · simp [removeFirstTag, countTag, hx]
      omega
    · rcases List.mem_cons.mp h with h1 | h1
      · exact absurd h1.symm hx
      · simp [removeFirstTag, countTag, hx]
        have := ih h1
        omega

theorem countTag_cons_self (d : String) (xs : List String) :
    countTag d (d :: xs) = countTag d xs + 1 := by
  simp [countTag]
  omega

theorem ensureDefault_spec (d : String) (langs : List String) :
    (ensureDefaultLanguageFirst d langs).head? = some d ∧
    d ∈ ensureDefaultLanguageFirst d langs ∧
    (countTag d langs ≤ 1 →
      countTag d (ensureDefaultLanguageFirst d langs) = 1) ∧
    (langs = [] → ensureDefaultLanguageFirst d langs = [d]) ∧
    (d ∉ langs → ensureDefaultLanguageFirst d langs = d :: langs) := by
  cases langs with
  | nil =>
    refine ⟨rfl, by simp [ensureDefaultLanguageFirst], ?_, fun _ => rfl,
      fun _ => rfl⟩
    intro _
    simp [ensureDefaultLanguageFirst, countTag]
  | cons l0 rest =>
    by_cases h0 : l0 = d
    · subst h0
      refine ⟨by simp [ensureDefaultLanguageFirst], ?_, ?_, ?_, ?_⟩
      · simp [ensureDefaultLanguageFirst]
      · intro hle
        have he : ensureDefaultLanguageFirst l0 (l0 :: rest) = l0 :: rest := by
          simp [ensureDefaultLanguageFirst]
        rw [he, countTag_cons_self]
        rw [countTag_cons_self] at hle
        omega
      · intro h; cases h
      · intro h
        exact absurd (List.mem_cons_self l0 rest) h
    · by_cases hm : d ∈ l0 :: rest
      · have hrm := countTag_removeFirstTag d (l0 :: rest) hm
        have hpos := countTag_pos d (l0 :: rest) hm
        refine ⟨?_, ?_, ?_, ?_, ?_⟩
        · simp [ensureDefaultLanguageFirst, h0, hm]
        · simp [ensureDefaultLanguageFirst, h0, hm]
        · intro hle
          simp only [ensureDefaultLanguageFirst, if_neg h0, if_pos hm]
          rw [countTag_cons_self]
          omega
        · intro h; cases h
        · intro h; exact absurd hm h
      · refine ⟨?_, ?_, ?_, ?_, ?_⟩
        · simp [ensureDefaultLanguageFirst, h0, hm]
        · simp [ensureDefaultLanguageFirst, h0, hm]
        · intro _
          have hz := countTag_eq_zero d (l0 :: rest) hm
          simp only [ensureDefaultLanguageFirst, if_neg h0, if_neg hm]
          rw [countTag_cons_self]
          omega
        · intro h; cases h
        · intro _; simp [ensureDefaultLanguageFirst, h0, hm]

/-- C5 (amended): after `NewBundle`'s locale bookkeeping the default locale is
always the first element of the supported list and is always present; it is
present exactly once provided it occurs at most once among the parsed
candidates (the code moves only the first occurrence to the front, so a
duplicated candidate list keeps its duplicates — see the counterexample);
when no candidate parses the list is exactly the singleton default; and a
default absent from the candidates is inserted at the front. -/
theorem claim_C5 (dOpt : Option String) (locs : List String) :
    (newBundleLanguages dOpt locs).2.head? =
      some (newBundleLanguages dOpt locs).1 ∧
    (newBundleLanguages dOpt locs).1 ∈ (newBundleLanguages dOpt locs).2 ∧
    (countTag (newBundleLanguages dOpt locs).1 (withLocalesTags locs) ≤ 1 →
      countTag (newBundleLanguages dOpt locs).1
        (newBundleLanguages dOpt locs).2 = 1) ∧
    (withLocalesTags locs = [] →
      (newBundleLanguages dOpt locs).2 = [(newBundleLanguages dOpt locs).1]) ∧
    ((newBundleLanguages dOpt locs).1 ∉ withLocalesTags locs →
      (newBundleLanguages dOpt locs).2 =
        (newBundleLanguages dOpt locs).1 :: withLocalesTags locs) :=
  ensureDefault_spec (newBundleLanguages dOpt locs).1 (withLocalesTags locs)

/-- C5 counterexample: with no configured default and the duplicated
candidate list of "en" twice, the default resolves to "en" but the supported
list keeps both occurrences — the default does not occur exactly once. -/
theorem claim_C5_cex :
    (newBundleLanguages none ["en", "en"]).2 = ["en", "en"] ∧
    countTag (newBundleLanguages none ["en", "en"]).1
      (newBundleLanguages none ["en", "en"]).2 ≠ 1 :=
  ⟨rfl, by decide⟩

/-- C5 witness: the amended theorem at a concrete configuration with an
explicit default absent from the candidates. -/
theorem claim_C5_witness :
    (newBundleLanguages (some "fr") ["en", "de"]).2.head? =
      some (newBundleLanguages (some "fr") ["en", "de"]).1 ∧
    countTag (newBundleLanguages (some "fr") ["en", "de"]).1
      (newBundleLanguages (some "fr") ["en", "de"]).2 = 1 := by
  have h := claim_C5 (some "fr") ["en", "de"]
  exact ⟨h.1, h.2.2.1 (by decide)⟩

/- ----------------------------------------------------------------------- -/
/- C2 and C4: the cycle-guarded fallback walk                               -/
/- ----------------------------------------------------------------------- -/

theorem mfind_fallbacks_sub (fbs : List (String × List String)) (l : String)
    (c : List String) (h : mfind fbs l = some c) :
    ∀ x ∈ c, x ∈ fbLocales fbs := by
  induction fbs with
  | nil => simp [mfind] at h
  | cons hd tl ih =>
    obtain ⟨k2, c2⟩ := hd
    by_cases h2 : k2 = l
    · simp only [mfind, if_pos h2] at h
      obtain rfl := Option.some.inj h
      intro x hx
      simp only [fbLocales, List.mem_cons, List.mem_append]
      exact Or.inr (Or.inl hx)
    · simp only [mfind, if_neg h2] at h
      intro x hx
      have := ih h x hx
      simp only [fbLocales, List.mem_cons, List.mem_append]
      exact Or.inr (Or.inr this)

theorem sdiff_insert_card_lt (U vis : Finset String) (x : String)
    (hU : x ∈ U) (hv : x ∉ vis) :
    (U \ insert x vis).card < (U \ vis).card := by
  have h1 : U \ insert x vis = (U \ vis).erase x := by
    ext y
    simp only [Finset.mem_sdiff, Finset.mem_insert, Finset.mem_erase]
    tauto
  rw [h1]
  exact Finset.card_erase_lt_of_mem (Finset.mem_sdiff.mpr ⟨hU, hv⟩)

theorem sdiff_card_mono (U vis vis2 : Finset String) (h : vis ⊆ vis2) :
    (U \ vis2).card ≤ (U \ vis).card :=
  Finset.card_le_card (Finset.sdiff_subset_sdiff (Finset.Subset.refl U) h)

theorem chainGo_total (b : I18n) (U : Finset String) (name : String) (f : Nat)
    (lf : String → Finset String →
      Option (Option parsedTranslation × Finset String))
    (hlf : ∀ l vis, l ∈ U → (U \ vis).card < f →
      ∃ r vis2, lf l vis = some (r, vis2) ∧ vis ⊆ vis2 ∧
        (l ∉ vis → pres b b.defaultLocale name → r.isSome = true)) :
    ∀ chain vis, (∀ x ∈ chain, x ∈ U) → (U \ vis).card < f →
      ∃ r vis2, chainGo b lf name chain vis = some (r, vis2) ∧ vis ⊆ vis2 ∧
        (pres b b.defaultLocale name → r.isSome = true) := by
  intro chain
  induction chain with
  | nil =>
    intro vis _ _
    exact ⟨mfind2 b.parsedTranslations b.defaultLocale name, vis, rfl,
      Finset.Subset.refl vis, fun hp => hp⟩
  | cons fb rest ih =>
    intro vis hsub hcard
    cases hhit : mfind2 b.parsedTranslations fb name with
    | some v =>
      exact ⟨some v, vis, by simp [chainGo, hhit], Finset.Subset.refl vis,
        fun _ => rfl⟩
    | none =>
      obtain ⟨r1, vis2, heq1, hsub1, _⟩ :=
        hlf fb vis (hsub fb (List.mem_cons_self fb rest)) hcard
      cases r1 with
      | some found =>
        exact ⟨some found, vis2, by simp [chainGo, hhit, heq1], hsub1,
          fun _ => rfl⟩
      | none =>
        have hcard2 : (U \ vis2).card < f :=
          lt_of_le_of_lt (sdiff_card_mono U vis vis2 hsub1) hcard
        obtain ⟨r2, vis3, heq2, hsub2, himp2⟩ :=
          ih vis2 (fun x hx => hsub x (List.mem_cons_of_mem _ hx)) hcard2
        exact ⟨r2, vis3, by simp [chainGo, hhit, heq1, heq2],
          Finset.Subset.trans hsub1 hsub2, himp2⟩

theorem lookupFallbackF_total (b : I18n) (U : Finset String) (name : String)
    (hcl : fbClosed b U) :
    ∀ f locale vis, locale ∈ U → (U \ vis).card < f →
      ∃ r vis2, lookupFallbackF b f locale name vis = some (r, vis2) ∧
        vis ⊆ vis2 ∧
        (locale ∉ vis → pres b b.defaultLocale name → r.isSome = true) := by
  intro f
  induction f with
  | zero =>
    intro locale vis _ h
    exact absurd h (Nat.not_lt_zero _)
  | succ f2 ih =>
    intro locale vis hU hcard
    by_cases hv : locale ∈ vis
    · exact ⟨none, vis, by simp [lookupFallbackF, hv],
        Finset.Subset.refl vis, fun hnv => absurd hv hnv⟩
    · cases hch : mfind b.fallbacks locale with
      | none =>
        exact ⟨mfind2 b.parsedTranslations b.defaultLocale name,
          insert locale vis, by simp [lookupFallbackF, hv, hch],
          Finset.subset_insert _ _, fun _ hp => hp⟩
      | some chain =>
        have hcard2 : (U \ insert locale vis).card < f2 := by
          have hlt := sdiff_insert_card_lt U vis locale hU hv
          omega
        obtain ⟨r, vis2, heq, hsub, himp⟩ :=
          chainGo_total b U name f2
            (fun l v => lookupFallbackF b f2 l name v)
            (fun l v hl hc => ih l v hl hc)
            chain (insert locale vis) (hcl locale chain hch) hcard2
        exact ⟨r, vis2, by simp [lookupFallbackF, hv, hch, heq],
          Finset.Subset.trans (Finset.subset_insert _ _) hsub,
          fun _ hp => himp hp⟩

theorem uLocales_self (b : I18n) (loc : String) : loc ∈ uLocales b loc := by
  simp [uLocales]

theorem uLocales_closed (b : I18n) (loc : String) :
    fbClosed b (uLocales b loc) := by
  intro l c hc x hx
  simp only [uLocales, List.mem_toFinset, List.mem_cons]
  exact Or.inr (mfind_fallbacks_sub b.fallbacks l c hc x hx)

theorem uLocales_card (b : I18n) (loc : String) :
    (uLocales b loc \ ∅).card < fallbackFuel b loc := by
  simp [fallbackFuel]

/-- C2: the cycle-guarded fallback walk terminates for every fallback graph —
with the computed fuel bound it always returns a value instead of running
out — and a locale already in the visited set is treated as not found
instead of being re-entered. -/
theorem claim_C2 (b : I18n) (locale name : String) :
    (∃ r vis2, lookupFallbackF b (fallbackFuel b locale) locale name ∅ =
      some (r, vis2)) ∧
    (∀ f vis, locale ∈ vis →
      lookupFallbackF b (f + 1) locale name vis = some (none, vis)) := by
  constructor
  · obtain ⟨r, vis2, heq, _, _⟩ :=
      lookupFallbackF_total b (uLocales b locale) name
        (uLocales_closed b locale) (fallbackFuel b locale) locale ∅
        (uLocales_self b locale) (uLocales_card b locale)
    exact ⟨r, vis2, heq⟩
  · intro f vis hv
    simp [lookupFallbackF, hv]

/-- C2 witness: termination on a concrete self-cyclic graph and on a
concrete mutually-cyclic graph, and the visited-set guard. -/
theorem claim_C2_witness :
    (∃ r vis2, lookupFallbackF bCyc (fallbackFuel bCyc "a") "a" "k" ∅ =
      some (r, vis2)) ∧
    (∃ r vis2, lookupFallbackF bMut (fallbackFuel bMut "a") "a" "k" ∅ =
      some (r, vis2)) ∧
    lookupFallbackF bCyc (0 + 1) "a" "k" {"a"} = some (none, {"a"}) := by
  have h := claim_C2 bCyc "a" "k"
  exact ⟨h.1, (claim_C2 bMut "a" "k").1, h.2 0 {"a"} (by simp)⟩

theorem lookupBestFallback_isSome (b : I18n) (loc name : String)
    (hp : pres b b.defaultLocale name) :
    (lookupBestFallback b loc name).isSome = true := by
  obtain ⟨r, vis2, heq, _, himp⟩ :=
    lookupFallbackF_total b (uLocales b loc) name (uLocales_closed b loc)
      (fallbackFuel b loc) loc ∅ (uLocales_self b loc) (uLocales_card b loc)
  have hr := himp (Finset.not_mem_empty loc) hp
  simp only [lookupBestFallback, heq]
  exact hr

theorem lookupBestFallback_chain (b : I18n) (locale name : String)
    (chain : List String)
    (hchain : mfind b.fallbacks locale = some chain) :
    lookupBestFallback b locale name =
      walkResult (chainGo b
        (fun l v2 => lookupFallbackF b (uLocales b locale).card l name v2)
        name chain {locale}) := by
  have h1 : lookupFallbackF b (fallbackFuel b locale) locale name ∅ =
      chainGo b
        (fun l v2 => lookupFallbackF b (uLocales b locale).card l name v2)
        name chain {locale} := by
    simp [fallbackFuel, lookupFallbackF, hchain]
  simp only [lookupBestFallback]
  rw [h1]
  cases hc : chainGo b
      (fun l v2 => lookupFallbackF b (uLocales b locale).card l name v2)
      name chain {locale} with
  | none => simp [walkResult]
  | some p =>
    obtain ⟨r, vs⟩ := p
    simp [walkResult]

theorem chainGo_of_exhausted (b : I18n)
    (lf : String → Finset String →
      Option (Option parsedTranslation × Finset String))
    (name : String) :
    ∀ chain vis vis3, chainExhausted b lf name chain vis vis3 →
      chainGo b lf name chain vis =
        some (mfind2 b.parsedTranslations b.defaultLocale name, vis3) := by
  intro chain vis vis3 h
  induction h with
  | nil vis => rfl
  | cons fb rest vis vis2 vis3 hmiss hlf hrest ih =>
    simp [chainGo, hmiss, hlf, ih]

/-- C4: for a locale with an explicit fallback chain, the walk tries the
configured fallbacks in list order: (1) a fallback's own unit for the key is
returned when present; (2) otherwise the walk recurses into that fallback and
returns the recursion's result when it is non-empty; (3) an empty recursion
is skipped and the walk continues with the remaining fallbacks, threading the
shared visited set; (4) when every fallback's own unit misses and every
recursion comes back empty — the chain is exhausted — the default locale's
unit is returned. -/
theorem claim_C4 (b : I18n) (locale name fb : String)
    (rest chain : List String) (v found : parsedTranslation)
    (vis2 vis3 : Finset String) :
    (mfind b.fallbacks locale = some (fb :: rest) →
      mfind2 b.parsedTranslations fb name = some v →
      lookupBestFallback b locale name = some v) ∧
    (mfind b.fallbacks locale = some (fb :: rest) →
      mfind2 b.parsedTranslations fb name = none →
      lookupFallbackF b (uLocales b locale).card fb name
          {locale} = some (some found, vis2) →
      lookupBestFallback b locale name = some found) ∧
    (mfind b.fallbacks locale = some (fb :: rest) →
      mfind2 b.parsedTranslations fb name = none →
      lookupFallbackF b (uLocales b locale).card fb name
          {locale} = some (none, vis2) →
      lookupBestFallback b locale name =
        walkResult (chainGo b
          (fun l v2 => lookupFallbackF b (uLocales b locale).card l name v2)
          name rest vis2)) ∧
    (mfind b.fallbacks locale = some chain →
      chainExhausted b
        (fun l v2 => lookupFallbackF b (uLocales b locale).card l name v2)
        name chain {locale} vis3 →
      lookupBestFallback b locale name =
        mfind2 b.parsedTranslations b.defaultLocale name) := by
  refine ⟨?_, ?_, ?_, ?_⟩
  · intro hchain hhit
    rw [lookupBestFallback_chain b locale name (fb :: rest) hchain]
    simp [chainGo, hhit, walkResult]
  · intro hchain hmiss hrec
    rw [lookupBestFallback_chain b locale name (fb :: rest) hchain]
    simp [chainGo, hmiss, hrec, walkResult]
  · intro hchain hmiss hrec
    rw [lookupBestFallback_chain b locale name (fb :: rest) hchain]
    simp [chainGo, hmiss, hrec, walkResult]
  · intro hchain hexh
    rw [lookupBestFallback_chain b locale name chain hchain]
    rw [chainGo_of_exhausted b _ name chain {locale} vis3 hexh]
    simp [walkResult]

/-- C4 witness: all four behaviors at concrete bundles — the spec's
head-of-chain scenario (ja-JP → ko-KR) end to end through `Get`; a deep
recursive hit through ko-KR's own chain into zh-CN; an empty recursion
(cycle guard) skipped in favor of the next fallback in order; and a fully
exhausted self-cyclic chain falling back to the default locale's unit. -/
theorem claim_C4_witness :
    lookupBestFallback bJa "ja-JP" "k" = some ptKo ∧
    lookupBestFallback bJa2 "ja-JP" "k" = some ptCn ∧
    lookupBestFallback bSkip "a" "k" = some ptC ∧
    lookupBestFallback bExh "a" "k" =
      mfind2 bExh.parsedTranslations bExh.defaultLocale "k" ∧
    mfind2 bExh.parsedTranslations bExh.defaultLocale "k" = some ptK ∧
    ptKo.text ≠ ptZh.text ∧ ptCn.text ≠ ptZh.text ∧ ptC.text ≠ ptK.text ∧
    (Get (formatFallbacks bJa) "ja-JP" "k" []).1 = "ko text" := by
  have h1 : lookupBestFallback bJa "ja-JP" "k" = some ptKo :=
    (claim_C4 bJa "ja-JP" "k" "ko-KR" [] [] ptKo ptKo ∅ ∅).1 rfl rfl
  have h2 : lookupBestFallback bJa2 "ja-JP" "k" = some ptCn :=
    (claim_C4 bJa2 "ja-JP" "k" "ko-KR" [] [] ptZh ptCn
      (insert "ko-KR" {"ja-JP"}) ∅).2.1 rfl rfl rfl
  have h3 : lookupBestFallback bSkip "a" "k" = some ptC :=
    ((claim_C4 bSkip "a" "k" "a" ["c"] [] ptK ptK
      {"a"} ∅).2.2.1 rfl rfl rfl).trans rfl
  have h4 : lookupBestFallback bExh "a" "k" =
      mfind2 bExh.parsedTranslations bExh.defaultLocale "k" :=
    (claim_C4 bExh "a" "k" "a" [] ["a"] ptK ptK ∅
      {"a"}).2.2.2 rfl
      (chainExhausted.cons "a" [] {"a"} {"a"}
        {"a"} rfl rfl (chainExhausted.nil {"a"}))
  exact ⟨h1, h2, h3, h4, rfl, by decide, by decide, by decide, by decide⟩

/- ----------------------------------------------------------------------- -/
/- C3: fallback materialization fills every gap                             -/
/- ----------------------------------------------------------------------- -/

theorem setPT_pts (b : I18n)
    (pts : List (String × List (String × parsedTranslation))) :
    (setPT b pts).parsedTranslations = pts := rfl

theorem setPT_default (b : I18n)
    (pts : List (String × List (String × parsedTranslation))) :
    (setPT b pts).defaultLocale = b.defaultLocale := rfl

theorem mfind2_some (m : List (String × List (String × parsedTranslation)))
    (loc k : String) (inner : List (String × parsedTranslation))
    (h : mfind m loc = some inner) : mfind2 m loc k = mfind inner k := by
  simp [mfind2, h]

theorem mfind2_none (m : List (String × List (String × parsedTranslation)))
    (loc k : String) (h : mfind m loc = none) : mfind2 m loc k = none := by
  simp [mfind2, h]

theorem mfind2_minsert_outer
    (m : List (String × List (String × parsedTranslation))) (loc : String)
    (inner : List (String × parsedTranslation)) (l k : String) :
    mfind2 (minsert m loc inner) l k =
      if loc = l then mfind inner k else mfind2 m l k := by
  by_cases h : loc = l
  · subst h; simp [mfind2, mfind_minsert]
  · simp [mfind2, mfind_minsert, h]

theorem stepLoc_eq (b : I18n) (p : parsedTranslation) (loc : String) :
    stepLoc b p loc = b ∨
    ∃ tr best, loc ≠ b.defaultLocale ∧
      mfind b.parsedTranslations loc = some tr ∧
      stepLoc b p loc =
        setPT b (minsert b.parsedTranslations loc (minsert tr p.name best)) := by
  by_cases h1 : loc = b.defaultLocale
  · left; simp [stepLoc, h1]
  · cases h2 : mfind b.parsedTranslations loc with
    | none => left; simp [stepLoc, h1, h2]
    | some tr =>
      by_cases h3 : (mfind tr p.name).isSome = true
      · left; simp [stepLoc, h1, h2, h3]
      · cases h4 : lookupBestFallback b loc p.name with
        | none => left; simp [stepLoc, h1, h2, h3, h4]
        | some best =>
          right
          exact ⟨tr, best, h1, rfl, by simp [stepLoc, h1, h2, h3, h4, setPT]⟩

theorem stepLoc_defaultLocale (b : I18n) (p : parsedTranslation)
    (loc : String) : (stepLoc b p loc).defaultLocale = b.defaultLocale := by
  rcases stepLoc_eq b p loc with h | ⟨tr, best, _, _, h⟩
  · rw [h]
  · rw [h, setPT_default]

theorem stepLoc_keys (b : I18n) (p : parsedTranslation) (loc : String) :
    ptKeys (stepLoc b p loc) = ptKeys b := by
  rcases stepLoc_eq b p loc with h | ⟨tr, best, _, h2, h⟩
  · rw [h]
  · rw [h]
    show (minsert b.parsedTranslations loc
      (minsert tr p.name best)).map Prod.fst = ptKeys b
    exact minsert_keys _ _ _ _ h2

theorem stepLoc_defaultInner (b : I18n) (p : parsedTranslation)
    (loc : String) :
    mfind (stepLoc b p loc).parsedTranslations
        (stepLoc b p loc).defaultLocale =
      mfind b.parsedTranslations b.defaultLocale := by
  rcases stepLoc_eq b p loc with h | ⟨tr, best, h1, h2, h⟩
  · rw [h]
  · rw [h, setPT_pts, setPT_default, mfind_minsert, if_neg h1]

theorem stepLoc_mono (b : I18n) (p : parsedTranslation) (loc l k : String)
    (hp : pres b l k) : pres (stepLoc b p loc) l k := by
  rcases stepLoc_eq b p loc with h | ⟨tr, best, h1, h2, h⟩
  · rwa [h]
  · rw [h]
    simp only [pres, setPT_pts] at hp ⊢
    rw [mfind2_minsert_outer]
    by_cases hl : loc = l
    · rw [if_pos hl]
      have hp2 : (mfind tr k).isSome = true := by
        rw [← hl] at hp
        rwa [mfind2_some b.parsedTranslations loc k tr h2] at hp
      rw [mfind_minsert]
      by_cases hk : p.name = k
      · simp [hk]
      · rw [if_neg hk]; exact hp2
    · rw [if_neg hl]; exact hp

theorem pres_default_of_inner_eq (b b2 : I18n)
    (hd : mfind b2.parsedTranslations b2.defaultLocale =
      mfind b.parsedTranslations b.defaultLocale)
    (k : String) (hp : pres b b.defaultLocale k) :
    pres b2 b2.defaultLocale k := by
  simp only [pres, mfind2] at hp ⊢
  rw [hd]
  exact hp

theorem stepLoc_fills (b : I18n) (p : parsedTranslation) (loc2 : String)
    (hkey : loc2 ∈ ptKeys b) (hp : pres b b.defaultLocale p.name) :
    pres (stepLoc b p loc2) loc2 p.name := by
  by_cases h1 : loc2 = b.defaultLocale
  · have heq : stepLoc b p loc2 = b := by simp [stepLoc, h1]
    rw [heq, h1]
    exact hp
  · cases h2 : mfind b.parsedTranslations loc2 with
    | none =>
      have hs := mem_keys_mfind b.parsedTranslations loc2 hkey
      rw [h2] at hs
      simp at hs
    | some tr =>
      by_cases h3 : (mfind tr p.name).isSome = true
      · have heq : stepLoc b p loc2 = b := by simp [stepLoc, h1, h2, h3]
        rw [heq]
        simp only [pres]
        rw [mfind2_some _ _ _ _ h2]
        exact h3
      · cases h4 : lookupBestFallback b loc2 p.name with
        | none =>
          have hb := lookupBestFallback_isSome b loc2 p.name hp
          rw [h4] at hb
          simp at hb
        | some best =>
          have heq : stepLoc b p loc2 =
              setPT b (minsert b.parsedTranslations loc2
                (minsert tr p.name best)) := by
            simp [stepLoc, h1, h2, h3, h4, setPT]
          rw [heq]
          simp only [pres, setPT_pts]
          rw [mfind2_minsert_outer, if_pos rfl, mfind_minsert, if_pos rfl]
          rfl

theorem foldLoc_shape : ∀ (locs : List String) (b : I18n)
    (p : parsedTranslation),
    (locs.foldl (fun acc loc => stepLoc acc p loc) b).defaultLocale =
      b.defaultLocale ∧
    ptKeys (locs.foldl (fun acc loc => stepLoc acc p loc) b) = ptKeys b ∧
    mfind (locs.foldl (fun acc loc => stepLoc acc p loc) b).parsedTranslations
        (locs.foldl (fun acc loc => stepLoc acc p loc) b).defaultLocale =
      mfind b.parsedTranslations b.defaultLocale ∧
    (∀ l k, pres b l k →
      pres (locs.foldl (fun acc loc => stepLoc acc p loc) b) l k) := by
  intro locs
  induction locs with
  | nil => intro b p; exact ⟨rfl, rfl, rfl, fun _ _ h => h⟩
  | cons loc rest ih =>
    intro b p
    obtain ⟨s1, s2, s3, s4⟩ := ih (stepLoc b p loc) p
    refine ⟨?_, ?_, ?_, ?_⟩
    · simp only [List.foldl_cons]
      rw [s1, stepLoc_defaultLocale]
    · simp only [List.foldl_cons]
      rw [s2, stepLoc_keys]
    · simp only [List.foldl_cons]
      rw [s3, stepLoc_defaultInner]
    · intro l k h
      simp only [List.foldl_cons]
      exact s4 l k (stepLoc_mono b p loc l k h)

theorem foldLoc_fills : ∀ (locs : List String) (b : I18n)
    (p : parsedTranslation),
    pres b b.defaultLocale p.name →
    ∀ loc ∈ locs, loc ∈ ptKeys b →
      pres (locs.foldl (fun acc l2 => stepLoc acc p l2) b) loc p.name := by
  intro locs
  induction locs with
  | nil => intro b p _ loc h; simp at h
  | cons loc0 rest ih =>
    intro b p hp loc hmem hkey
    simp only [List.foldl_cons]
    rcases List.mem_cons.mp hmem with rfl | hmem2
    · have hfill := stepLoc_fills b p loc hkey hp
      exact (foldLoc_shape rest (stepLoc b p loc) p).2.2.2 loc p.name hfill
    · have hp1 : pres (stepLoc b p loc0)
          (stepLoc b p loc0).defaultLocale p.name :=
        pres_default_of_inner_eq b (stepLoc b p loc0)
          (stepLoc_defaultInner b p loc0) p.name hp
      have hkey1 : loc ∈ ptKeys (stepLoc b p loc0) := by
        rw [stepLoc_keys]; exact hkey
      exact ih (stepLoc b p loc0) p hp1 loc hmem2 hkey1

theorem stepKey_shape (b : I18n) (p : parsedTranslation) :
    (stepKey b p).defaultLocale = b.defaultLocale ∧
    ptKeys (stepKey b p) = ptKeys b ∧
    mfind (stepKey b p).parsedTranslations (stepKey b p).defaultLocale =
      mfind b.parsedTranslations b.defaultLocale ∧
    (∀ l k, pres b l k → pres (stepKey b p) l k) :=
  foldLoc_shape (ptKeys b) b p

theorem stepKey_fills (b : I18n) (p : parsedTranslation)
    (hp : pres b b.defaultLocale p.name) :
    ∀ loc ∈ ptKeys b, pres (stepKey b p) loc p.name :=
  fun loc h => foldLoc_fills (ptKeys b) b p hp loc h h

theorem foldKey_shape : ∀ (entries : List (String × parsedTranslation))
    (b : I18n),
    (entries.foldl (fun acc e => stepKey acc e.2) b).defaultLocale =
      b.defaultLocale ∧
    ptKeys (entries.foldl (fun acc e => stepKey acc e.2) b) = ptKeys b ∧
    mfind (entries.foldl
        (fun acc e => stepKey acc e.2) b).parsedTranslations
        (entries.foldl (fun acc e => stepKey acc e.2) b).defaultLocale =
      mfind b.parsedTranslations b.defaultLocale ∧
    (∀ l k, pres b l k →
      pres (entries.foldl (fun acc e => stepKey acc e.2) b) l k) := by
  intro entries
  induction entries with
  | nil => intro b; exact ⟨rfl, rfl, rfl, fun _ _ h => h⟩
  | cons e rest ih =>
    intro b
    obtain ⟨s1, s2, s3, s4⟩ := ih (stepKey b e.2)
    obtain ⟨t1, t2, t3, t4⟩ := stepKey_shape b e.2
    refine ⟨?_, ?_, ?_, ?_⟩
    · simp only [List.foldl_cons]; rw [s1, t1]
    · simp only [List.foldl_cons]; rw [s2, t2]
    · simp only [List.foldl_cons]; rw [s3, t3]
    · intro l k h
      simp only [List.foldl_cons]
      exact s4 l k (t4 l k h)

theorem foldKey_fills : ∀ (entries : List (String × parsedTranslation))
    (b : I18n) (e : String × parsedTranslation), e ∈ entries →
    pres b b.defaultLocale e.2.name →
    ∀ loc ∈ ptKeys b,
      pres (entries.foldl (fun acc e2 => stepKey acc e2.2) b) loc
        e.2.name := by
  intro entries
  induction entries with
  | nil => intro b e h; simp at h
  | cons e0 rest ih =>
    intro b e hmem hp loc hkey
    simp only [List.foldl_cons]
    rcases List.mem_cons.mp hmem with rfl | h2
    · have hfill := stepKey_fills b e.2 hp loc hkey
      exact (foldKey_shape rest (stepKey b e.2)).2.2.2 loc e.2.name hfill
    · have hp1 : pres (stepKey b e0.2)
          (stepKey b e0.2).defaultLocale e.2.name :=
        pres_default_of_inner_eq b (stepKey b e0.2)
          (stepKey_shape b e0.2).2.2.1 e.2.name hp
      have hkey1 : loc ∈ ptKeys (stepKey b e0.2) := by
        rw [(stepKey_shape b e0.2).2.1]; exact hkey
      exact ih (stepKey b e0.2) e h2 hp1 loc hkey1

/-- C3: after `formatFallbacks` (run at the end of every `LoadMessages`
call), every key present in the default locale's index has a materialized
entry in every locale of the translation index.  The hypothesis that the
default index's units carry their map key as their name field is an invariant
of every state `LoadMessages` builds, since it stores `parseTranslation`'s
unit under the same name. -/
theorem claim_C3 (b : I18n)
    (hnames : ∀ p ∈ defaultEntries b, p.2.name = p.1) :
    ∀ k, pres b b.defaultLocale k →
      ∀ loc ∈ ptKeys b, pres (formatFallbacks b) loc k := by
  intro k hk loc hloc
  have hk2 := hk
  simp only [pres] at hk2
  cases hd : mfind b.parsedTranslations b.defaultLocale with
  | none => rw [mfind2_none _ _ _ hd] at hk2; simp at hk2
  | some dInner =>
    rw [mfind2_some _ _ _ _ hd] at hk2
    cases hke : mfind dInner k with
    | none => rw [hke] at hk2; simp at hk2
    | some pt =>
      have hmem : (k, pt) ∈ defaultEntries b := by
        simp only [defaultEntries, hd, Option.getD_some]
        exact mfind_mem dInner k pt hke
      have hname : pt.name = k := hnames (k, pt) hmem
      have hpk : pres b b.defaultLocale (k, pt).2.name := by
        show pres b b.defaultLocale pt.name
        rw [hname]
        exact hk
      have hfill :=
        foldKey_fills (defaultEntries b) b (k, pt) hmem hpk loc hloc
      show pres (formatFallbacks b) loc k
      rw [← hname]
      exact hfill

/-- C3 witness: on a concrete bundle whose default locale holds one unit and
whose other locale has an empty index, the unit is materialized into the
other locale's index. -/
theorem claim_C3_witness : pres (formatFallbacks bGap) "fr" "k" := by
  refine claim_C3 bGap ?_ "k" ?_ "fr" ?_
  · intro p hp
    have hpe : p = ("k", ptK) := by
      simpa [defaultEntries, bGap, mfind] using hp
    rw [hpe]
    rfl
  · exact rfl
  · simp [ptKeys, bGap]

end GoI18n
